import Mathlib

/-!
Verification of the block/chain core of src/VehicleBlockChain.py.

The Python module defines a Block class (hash_block, mine_block) and a
VehicleBlockchain class (create_genesis_block, add_data, _validate_data,
_generate_signature, is_chain_valid, save_chain, load_chain,
get_block_by_vehicle_id).  We embed it shallowly:

* Python dict/list/scalar values that can appear in a block's data are the
  inductive JValue; the constructor jbad stands for a value that
  json.dumps cannot serialize, so dumps returns an Option.
* hashlib.sha256(...).hexdigest() is an external library call, so every
  definition is parametrised by an arbitrary digest function
  H : String → String applied to exactly the string the Python code feeds
  to sha256.
* The unbounded while-loop in mine_block is modelled with explicit fuel:
  some b means the loop terminated with final block b, none means it
  either did not terminate within the fuel or hash_block raised.
* datetime.now() is nondeterministic, so timestamps are explicit inputs.
* The JSON file used for persistence is modelled at the level of its
  parsed JValue (save_chain writes the value json.dump would print and
  load_chain reads it back); a Bool argument says whether the file write
  raises, and exceptions that the Python code lets escape are Option/Except
  results.
-/

mutual

inductive JValue : Type where
  | jnull : JValue
  | jbool (b : Bool) : JValue
  | jnum (n : Int) : JValue
  | jstr (s : String) : JValue
  | jbad : JValue
  | jarr (xs : JList) : JValue
  | jobj (fields : JFields) : JValue
deriving Repr, DecidableEq

inductive JList : Type where
  | nil : JList
  | cons (v : JValue) (rest : JList) : JList
deriving Repr, DecidableEq

inductive JFields : Type where
  | nil : JFields
  | cons (key : String) (value : JValue) (rest : JFields) : JFields
deriving Repr, DecidableEq

end

/-- Comma-space separator used by json.dumps between serialized items. -/
def joinComma : List String → String
  | [] => ""
  | [s] => s
  | s :: rest => s ++ ", " ++ joinComma rest

/-- Double-quote a string the way json.dumps prints keys and string values. -/
def jquote (s : String) : String := "\"" ++ s ++ "\""

/-- Code-point lexicographic order on char lists, as Python compares strings. -/
def charsLt : List Char → List Char → Bool
  | [], [] => false
  | [], _ :: _ => true
  | _ :: _, [] => false
  | c :: cs, d :: ds =>
      if c.toNat < d.toNat then true
      else if d.toNat < c.toNat then false
      else charsLt cs ds

/-- Python string comparison key1 < key2 (by Unicode code points). -/
def strLt (a b : String) : Bool := charsLt a.data b.data

/-- Insert one serialized field into a key-sorted list of serialized fields. -/
def insertByKey (p : String × String) : List (String × String) → List (String × String)
  | [] => [p]
  | q :: qs => if strLt p.1 q.1 then p :: q :: qs else q :: insertByKey p qs

/-- Sort serialized fields by key, as json.dumps with sort_keys=True does. -/
def sortByKey : List (String × String) → List (String × String)
  | [] => []
  | p :: ps => insertByKey p (sortByKey ps)

mutual

/-- Model of json.dumps(v, sort_keys=True): none when the value contains a
non-serializable part (the Python call raises), otherwise the serialized text
with object keys sorted at every level. -/
def dumps : JValue → Option String
  | .jnull => some "null"
  | .jbool true => some "true"
  | .jbool false => some "false"
  | .jnum n => some (toString n)
  | .jstr s => some (jquote s)
  | .jbad => none
  | .jarr xs => (dumpsList xs).map (fun ss => "[" ++ joinComma ss ++ "]")
  | .jobj fs => (dumpsFields fs).map (fun ps =>
      "\x7b" ++ joinComma ((sortByKey ps).map (fun p => jquote p.1 ++ ": " ++ p.2)) ++ "\x7d")

/-- Serialize every element of a JSON array. -/
def dumpsList : JList → Option (List String)
  | .nil => some []
  | .cons v vs => do
      let s ← dumps v
      let ss ← dumpsList vs
      pure (s :: ss)

/-- Serialize every field value of a JSON object, keeping insertion order. -/
def dumpsFields : JFields → Option (List (String × String))
  | .nil => some []
  | .cons k v fs => do
      let s ← dumps v
      let ps ← dumpsFields fs
      pure ((k, s) :: ps)

end

/-- Block of the chain: the six attributes of the Python Block class.
Python ints are unbounded, hence Int for index and nonce. -/
structure Block where
  index : Int
  timestamp : String
  data : JValue
  previous_hash : String
  nonce : Int
  hash : String
deriving Repr, DecidableEq

/-- The f-string concatenation hash_block feeds to sha256:
f"{index}{timestamp}{json.dumps(data, sort_keys=True)}{previous_hash}{nonce}". -/
def block_string (index : Int) (timestamp : String) (dataStr : String)
    (previous_hash : String) (nonce : Int) : String :=
  toString index ++ timestamp ++ dataStr ++ previous_hash ++ toString nonce

/-- Digest of a block's fields with an explicit nonce; none when json.dumps
raises (Block.hash_block propagates that exception). -/
def hash_of (H : String → String) (index : Int) (timestamp : String) (data : JValue)
    (previous_hash : String) (nonce : Int) : Option String :=
  (dumps data).map (fun ds => H (block_string index timestamp ds previous_hash nonce))

/-- Block.hash_block: recompute the digest from the block's current fields. -/
def hash_block (H : String → String) (b : Block) : Option String :=
  hash_of H b.index b.timestamp b.data b.previous_hash b.nonce

/-- Block.__init__: nonce starts at 0 and hash is computed immediately;
none when hash_block raises. -/
def mkBlock (H : String → String) (index : Int) (timestamp : String) (data : JValue)
    (previous_hash : String) : Option Block :=
  (hash_of H index timestamp data previous_hash 0).map
    (fun h => ⟨index, timestamp, data, previous_hash, 0, h⟩)

/-- The mining target "0" * difficulty. -/
def target (difficulty : Nat) : String := String.mk (List.replicate difficulty '0')

/-- Python slice s[:n]: the first n characters (all of s when it is shorter). -/
def strTake (s : String) (n : Nat) : String := String.mk (s.data.take n)

/-- One iteration of the mining loop body: nonce += 1 then
hash = hash_block(); none when hash_block raises. -/
def mineStep (H : String → String) (b : Block) : Option Block :=
  match hash_block H { b with nonce := b.nonce + 1 } with
  | none => none
  | some h => some { b with nonce := b.nonce + 1, hash := h }

/-- Block.mine_block(difficulty): loop while self.hash[:difficulty] != target.
Fuel bounds the number of iterations we run; some b is a terminated run,
none means no termination within the fuel or an exception from hash_block. -/
def mine_block (H : String → String) (difficulty : Nat) : Nat → Block → Option Block
  | 0, b => if strTake b.hash difficulty = target difficulty then some b else none
  | fuel + 1, b =>
      if strTake b.hash difficulty = target difficulty then some b
      else
        match mineStep H b with
        | none => none
        | some b1 => mine_block H difficulty fuel b1

/-- State of a VehicleBlockchain instance together with the durable file:
chain and difficulty are the attributes of the Python object, file is the
parsed JSON content of data_file (none when the file does not exist). -/
structure LState where
  chain : List Block
  difficulty : Nat
  file : Option JValue
deriving Repr, DecidableEq

/-- Turn a Lean list into the JList spine of a JSON array. -/
def listToJList : List JValue → JList
  | [] => .nil
  | v :: vs => .cons v (listToJList vs)

/-- The dict save_chain builds for one block (its six attributes). -/
def blockToJson (b : Block) : JValue :=
  .jobj (.cons "index" (.jnum b.index)
    (.cons "timestamp" (.jstr b.timestamp)
      (.cons "data" b.data
        (.cons "previous_hash" (.jstr b.previous_hash)
          (.cons "nonce" (.jnum b.nonce)
            (.cons "hash" (.jstr b.hash) .nil))))))

/-- The JSON array save_chain passes to json.dump. -/
def chainToJson (c : List Block) : JValue :=
  .jarr (listToJList (c.map blockToJson))

/-- VehicleBlockchain.save_chain: serialize the whole chain and overwrite the
file; ok says whether the file write succeeds.  Every exception is caught
inside save_chain and only logged, so the in-memory state never changes and
nothing propagates to the caller; on failure the file is left as it was. -/
def save_chain (ok : Bool) (s : LState) : LState :=
  match dumps (chainToJson s.chain) with
  | none => s
  | some _ => if ok then { s with file := some (chainToJson s.chain) } else s

/-- First field of a JSON object bound to the given key (Python dict access). -/
def jfieldsGet : JFields → String → Option JValue
  | .nil, _ => none
  | .cons k v rest, key => if k = key then some v else jfieldsGet rest key

/-- Value of data[key] when data is a dict that has the key. -/
def jGetKey (j : JValue) (key : String) : Option JValue :=
  match j with
  | .jobj fs => jfieldsGet fs key
  | _ => none

/-- One iteration of the load_chain loop: read the six entries of one block
record, call the Block constructor (which recomputes a hash with nonce 0),
then overwrite nonce and hash with the stored values.  none models the
exception raised on a missing or ill-typed entry or by hash_block. -/
def loadBlock (H : String → String) (j : JValue) : Option Block :=
  match jGetKey j "index", jGetKey j "timestamp", jGetKey j "data",
        jGetKey j "previous_hash", jGetKey j "nonce", jGetKey j "hash" with
  | some (.jnum idx), some (.jstr ts), some dat, some (.jstr ph),
      some (.jnum nn), some (.jstr hh) =>
      match mkBlock H idx ts dat ph with
      | none => none
      | some b => some { b with nonce := nn, hash := hh }
  | _, _, _, _, _, _ => none

/-- The for-loop of load_chain: blocks are appended one at a time, so an
exception part-way leaves the already rebuilt ones in self.chain; the Bool
records whether the whole loop ran without an exception. -/
def loadLoop (H : String → String) : JList → List Block → List Block × Bool
  | .nil, acc => (acc, true)
  | .cons j rest, acc =>
      match loadBlock H j with
      | none => (acc, false)
      | some b => loadLoop H rest (acc ++ [b])

/-- The payload of the genesis block. -/
def genesisData : JValue := .jobj (.cons "message" (.jstr "Blocco Genesi") .nil)

/-- VehicleBlockchain.create_genesis_block: build a block with index 0 and
previous_hash "0", mine it, append it to self.chain and save.  none models
a run that does not get past mining (exception or no termination in fuel). -/
def create_genesis_block (H : String → String) (ok : Bool) (ts : String) (fuel : Nat)
    (s : LState) : Option LState :=
  match mkBlock H 0 ts genesisData "0" with
  | none => none
  | some gb =>
      match mine_block H s.difficulty fuel gb with
      | none => none
      | some mined => some (save_chain ok { s with chain := s.chain ++ [mined] })

/-- VehicleBlockchain.load_chain: parse the file and rebuild the chain; any
exception is caught and answered by create_genesis_block, which appends a
fresh genesis to whatever self.chain holds at that point.  A missing file
fails before self.chain is reset; a file whose top level is not an array
fails after it. -/
def load_chain (H : String → String) (ok : Bool) (ts : String) (fuel : Nat)
    (s : LState) : Option LState :=
  match s.file with
  | none => create_genesis_block H ok ts fuel s
  | some (.jarr items) =>
      let r := loadLoop H items []
      let s1 := { s with chain := r.1 }
      if r.2 then some s1 else create_genesis_block H ok ts fuel s1
  | some _ => create_genesis_block H ok ts fuel { s with chain := [] }

/-- VehicleBlockchain.__init__(difficulty, data_file): start with an empty
chain, then load the file if it exists, else create the genesis block. -/
def initLedger (H : String → String) (ok : Bool) (ts : String) (fuel : Nat)
    (difficulty : Nat) (file : Option JValue) : Option LState :=
  match file with
  | some _ => load_chain H ok ts fuel ⟨[], difficulty, file⟩
  | none => create_genesis_block H ok ts fuel ⟨[], difficulty, none⟩

/-- The vehicle_id argument of add_data as the caller passes it: a Python
string, or a value of any other type (isinstance check fails). -/
inductive VId where
  | str (s : String) : VId
  | nonstr : VId
deriving Repr, DecidableEq

/-- Python isinstance(v, dict) on a JSON-like value. -/
def isObj : JValue → Bool
  | .jobj _ => true
  | _ => false

/-- VehicleBlockchain._validate_data: true when it returns normally, false
when it raises ValueError (empty or non-string id, or non-dict record). -/
def validate_data (vid : VId) (sensor_data : JValue) : Bool :=
  match vid with
  | .str v => if v = "" then false else isObj sensor_data
  | .nonstr => false

/-- VehicleBlockchain._generate_signature: sha256 of vehicle_id followed by
the canonical serialization of sensor_data; none when json.dumps raises. -/
def generate_signature (H : String → String) (v : String) (sensor_data : JValue) :
    Option String :=
  (dumps sensor_data).map (fun ds => H (v ++ ds))

/-- The data dict stored in a block built by add_data. -/
def newBlockData (v : String) (sensor_data : JValue) (sig : String) : JValue :=
  .jobj (.cons "vehicle_id" (.jstr v)
    (.cons "sensor_data" sensor_data
      (.cons "signature" (.jstr sig) .nil)))

/-- VehicleBlockchain.add_data: validate, build and mine a block on top of
the current tail, append it, save, and return True; any exception up to and
including mining is caught and answered with False, leaving the state as it
was.  ok is the file-write outcome passed on to save_chain. -/
def add_data (H : String → String) (ok : Bool) (ts : String) (fuel : Nat)
    (s : LState) (vid : VId) (sensor_data : JValue) : LState × Bool :=
  if validate_data vid sensor_data then
    match vid with
    | .nonstr => (s, false)
    | .str v =>
        match s.chain.getLast? with
        | none => (s, false)
        | some prev =>
            match generate_signature H v sensor_data with
            | none => (s, false)
            | some sig =>
                match mkBlock H (s.chain.length : Int) ts (newBlockData v sensor_data sig)
                    prev.hash with
                | none => (s, false)
                | some nb =>
                    match mine_block H s.difficulty fuel nb with
                    | none => (s, false)
                    | some mined =>
                        (save_chain ok { s with chain := s.chain ++ [mined] }, true)
  else (s, false)

deriving instance DecidableEq for Except

/-- The loop body checks of is_chain_valid, walking the chain from a given
predecessor: recompute the current block's hash and compare, then compare
previous_hash with the predecessor's stored hash; error () models the
exception hash_block lets escape. -/
def checkFrom (H : String → String) : Block → List Block → Except Unit Bool
  | _, [] => .ok true
  | prev, cur :: rest =>
      match hash_block H cur with
      | none => .error ()
      | some h =>
          if cur.hash ≠ h then .ok false
          else if cur.previous_hash ≠ prev.hash then .ok false
          else checkFrom H cur rest

/-- VehicleBlockchain.is_chain_valid: the for-loop over range(1, len(chain)).
ok true / ok false are the function's returns, error () an escaped exception. -/
def is_chain_valid (H : String → String) : List Block → Except Unit Bool
  | [] => .ok true
  | b :: rest => checkFrom H b rest

/-- Index the loop of is_chain_valid logs for the first failed check, walking
from a given predecessor with i the position of the head of the list. -/
def firstViolationFrom (H : String → String) : Nat → Block → List Block → Option Nat
  | _, _, [] => none
  | i, prev, cur :: rest =>
      match hash_block H cur with
      | none => none
      | some h =>
          if cur.hash ≠ h then some i
          else if cur.previous_hash ≠ prev.hash then some i
          else firstViolationFrom H (i + 1) cur rest

/-- Position at which is_chain_valid returns false (the index its warning
log names), none when it returns true or raises. -/
def firstViolation (H : String → String) : List Block → Option Nat
  | [] => none
  | b :: rest => firstViolationFrom H 1 b rest

/-- The filter predicate of get_block_by_vehicle_id:
block.index > 0 and block.data.get("vehicle_id") == vehicle_id.  Every block
this program stores has a dict payload, on which .get of a missing key gives
None; a stored value equals the queried string only when it is that string. -/
def vehicleMatch (b : Block) (vehicle_id : String) : Bool :=
  decide (0 < b.index) &&
    (match jGetKey b.data "vehicle_id" with
     | some (.jstr s) => s = vehicle_id
     | _ => false)

/-- VehicleBlockchain.get_block_by_vehicle_id: list comprehension filtering
the chain. -/
def get_block_by_vehicle_id (c : List Block) (vehicle_id : String) : List Block :=
  c.filter (fun b => vehicleMatch b vehicle_id)

/-- Digest function used to instantiate the abstract sha256 parameter in
concrete witnesses: every input hashes to "0h". -/
def H0 : String → String := fun _ => "0h"

/-- Recomputing a block's hash ignores the stored hash and uses the current
nonce. -/
theorem hash_block_update (H : String → String) (b : Block) (n : Int) (h : String) :
    hash_block H { b with nonce := n, hash := h }
      = hash_of H b.index b.timestamp b.data b.previous_hash n := by
  cases b
  rfl

/-- Blocks built by the Block constructor have a consistent hash. -/
theorem mkBlock_consistent (H : String → String) (index : Int) (timestamp : String)
    (data : JValue) (previous_hash : String) (b : Block)
    (hmk : mkBlock H index timestamp data previous_hash = some b) :
    hash_block H b = some b.hash := by
  unfold mkBlock hash_of at hmk
  cases hd : dumps data with
  | none => rw [hd] at hmk; simp at hmk
  | some ds =>
      rw [hd] at hmk
      simp only [Option.map_some'] at hmk
      cases hmk
      simp [hash_block, hash_of, hd]

/-- Mining changes only nonce and hash: index, timestamp, data and
previous_hash come out as they went in. -/
theorem mine_block_fields (H : String → String) (d : Nat) :
    ∀ (fuel : Nat) (b b' : Block), mine_block H d fuel b = some b' →
      b'.index = b.index ∧ b'.timestamp = b.timestamp ∧ b'.data = b.data ∧
        b'.previous_hash = b.previous_hash := by
  intro fuel
  induction fuel with
  | zero =>
      intro b b' h
      unfold mine_block at h
      split at h
      · cases h; exact ⟨rfl, rfl, rfl, rfl⟩
      · cases h
  | succ n ih =>
      intro b b' h
      unfold mine_block at h
      split at h
      · cases h; exact ⟨rfl, rfl, rfl, rfl⟩
      · unfold mineStep at h
        cases hh : hash_block H { b with nonce := b.nonce + 1 } with
        | none => rw [hh] at h; cases h
        | some hv =>
            rw [hh] at h
            change mine_block H d n { b with nonce := b.nonce + 1, hash := hv } = some b' at h
            exact ih { b with nonce := b.nonce + 1, hash := hv } b' h

/-- When the mining loop terminates, the final hash meets the target. -/
theorem mine_block_meets_target (H : String → String) (d : Nat) :
    ∀ (fuel : Nat) (b b' : Block), mine_block H d fuel b = some b' →
      strTake b'.hash d = target d := by
  intro fuel
  induction fuel with
  | zero =>
      intro b b' h
      unfold mine_block at h
      split at h
      · cases h; assumption
      · cases h
  | succ n ih =>
      intro b b' h
      unfold mine_block at h
      split at h
      · cases h; assumption
      · unfold mineStep at h
        cases hh : hash_block H { b with nonce := b.nonce + 1 } with
        | none => rw [hh] at h; cases h
        | some hv =>
            rw [hh] at h
            change mine_block H d n { b with nonce := b.nonce + 1, hash := hv } = some b' at h
            exact ih { b with nonce := b.nonce + 1, hash := hv } b' h

/-- When the mining loop starts from a block whose stored hash is consistent
with its fields, the final block's stored hash is consistent as well. -/
theorem mine_block_consistent (H : String → String) (d : Nat) :
    ∀ (fuel : Nat) (b b' : Block), hash_block H b = some b.hash →
      mine_block H d fuel b = some b' → hash_block H b' = some b'.hash := by
  intro fuel
  induction fuel with
  | zero =>
      intro b b' hc h
      unfold mine_block at h
      split at h
      · cases h; exact hc
      · cases h
  | succ n ih =>
      intro b b' hc h
      unfold mine_block at h
      split at h
      · cases h; exact hc
      · unfold mineStep at h
        cases hh : hash_block H { b with nonce := b.nonce + 1 } with
        | none => rw [hh] at h; cases h
        | some hv =>
            rw [hh] at h
            refine ih _ _ ?_ h
            rw [hash_block_update] at hh ⊢
            unfold hash_of at hh ⊢
            cases hd : dumps b.data with
            | none => rw [hd] at hh; cases hh
            | some ds => rw [hd] at hh; simp_all

/-- C2 (amended): for every difficulty d and every block whose stored hash is
consistent with its fields before the call (as the Block constructor
guarantees), if mine_block(d) terminates then the final block's hash is again
the digest recomputed from its current fields and its first d characters are
all zero characters. -/
theorem mine_block_spec (H : String → String) (d fuel : Nat) (b b' : Block)
    (hcons : hash_block H b = some b.hash)
    (hrun : mine_block H d fuel b = some b') :
    hash_block H b' = some b'.hash ∧ strTake b'.hash d = target d :=
  ⟨mine_block_consistent H d fuel b b' hcons hrun,
   mine_block_meets_target H d fuel b b' hrun⟩

/-- C2 witness: a consistent concrete block mined at difficulty 1. -/
theorem mine_block_spec_witness :
    hash_block H0 ⟨0, "t", .jobj .nil, "0", 0, "0h"⟩
        = some (Block.hash ⟨0, "t", .jobj .nil, "0", 0, "0h"⟩) ∧
    (hash_block H0 ⟨0, "t", .jobj .nil, "0", 0, "0h"⟩
        = some (Block.hash ⟨0, "t", .jobj .nil, "0", 0, "0h"⟩) ∧
      strTake (Block.hash ⟨0, "t", .jobj .nil, "0", 0, "0h"⟩) 1 = target 1) :=
  ⟨by decide,
   mine_block_spec H0 1 3 ⟨0, "t", .jobj .nil, "0", 0, "0h"⟩
     ⟨0, "t", .jobj .nil, "0", 0, "0h"⟩ (by decide) (by decide)⟩

/-- C2 counterexample: on a block whose stored hash (here "x") does not start
with any zero, mine_block at difficulty 0 terminates immediately without
touching the block, so the stored hash is not the digest recomputed from the
block's fields — the claim's consistency postcondition fails for a block that
was inconsistent before the call. -/
theorem mine_block_tampered_counterexample :
    mine_block H0 0 0 ⟨0, "t", .jobj .nil, "0", 0, "x"⟩
        = some ⟨0, "t", .jobj .nil, "0", 0, "x"⟩ ∧
    hash_block H0 ⟨0, "t", .jobj .nil, "0", 0, "x"⟩
        ≠ some (Block.hash ⟨0, "t", .jobj .nil, "0", 0, "x"⟩) := by decide

/-- Placeholder block used as the default of List.getD (never read at
in-range indices). -/
def bdef : Block := ⟨0, "", .jnull, "", 0, ""⟩

/-- The two checks the is_chain_valid loop runs at position i of the chain:
the stored hash equals the recomputed one, and previous_hash equals the
stored hash of block i-1. -/
def okAt (H : String → String) (c : List Block) (i : Nat) : Prop :=
  hash_block H (c.getD i bdef) = some (c.getD i bdef).hash ∧
    (c.getD i bdef).previous_hash = (c.getD (i - 1) bdef).hash

/-- hash_block succeeds exactly when the data is serializable. -/
theorem hash_block_isSome (H : String → String) (b : Block) :
    (hash_block H b).isSome ↔ (dumps b.data).isSome := by
  unfold hash_block hash_of
  cases dumps b.data <;> simp

/-- Shifting okAt across the head of the chain. -/
theorem okAt_cons (H : String → String) (p : Block) (l : List Block) (i : Nat) :
    okAt H (p :: l) (i + 2) ↔ okAt H l (i + 1) := by
  simp [okAt, List.getD_cons_succ]

/-- okAt at position 1 of an explicit two-or-more chain. -/
theorem okAt_one (H : String → String) (p cur : Block) (rest : List Block) :
    okAt H (p :: cur :: rest) 1 ↔
      (hash_block H cur = some cur.hash ∧ cur.previous_hash = p.hash) := by
  simp [okAt]

/-- One unfolding of the is_chain_valid loop when hash_block succeeds. -/
theorem checkFrom_cons_eq (H : String → String) (p cur : Block) (rest : List Block)
    (hdg : String) (hh : hash_block H cur = some hdg) :
    checkFrom H p (cur :: rest)
      = if cur.hash = hdg then
          (if cur.previous_hash = p.hash then checkFrom H cur rest else .ok false)
        else .ok false := by
  simp [checkFrom, hh, ite_not]

/-- One unfolding of the violation-index recursion when hash_block succeeds. -/
theorem firstViolationFrom_cons_eq (H : String → String) (k : Nat) (p cur : Block)
    (rest : List Block) (hdg : String) (hh : hash_block H cur = some hdg) :
    firstViolationFrom H k p (cur :: rest)
      = if cur.hash = hdg then
          (if cur.previous_hash = p.hash then firstViolationFrom H (k + 1) cur rest
           else some k)
        else some k := by
  simp [firstViolationFrom, hh, ite_not]

/-- The violation index is never below the position of the first block
checked. -/
theorem firstViolationFrom_ge (H : String → String) :
    ∀ (l : List Block) (p : Block) (k r : Nat),
      firstViolationFrom H k p l = some r → k ≤ r := by
  intro l
  induction l with
  | nil => intro p k r h; cases h
  | cons cur rest ih =>
      intro p k r h
      cases hh : hash_block H cur with
      | none =>
          unfold firstViolationFrom at h
          rw [hh] at h
          cases h
      | some hdg =>
          rw [firstViolationFrom_cons_eq H k p cur rest hdg hh] at h
          by_cases h1 : cur.hash = hdg
          · by_cases h2 : cur.previous_hash = p.hash
            · rw [if_pos h1, if_pos h2] at h
              have := ih cur (k + 1) r h
              omega
            · rw [if_pos h1, if_neg h2] at h
              cases h
              omega
          · rw [if_neg h1] at h
            cases h
            omega

/-- Reindexing the per-position checks across the head of the chain. -/
theorem forall_okAt_cons (H : String → String) (p cur : Block) (rest : List Block) :
    (∀ i, i < (cur :: rest).length → okAt H (p :: cur :: rest) (i + 1)) ↔
      (okAt H (p :: cur :: rest) 1 ∧
        ∀ i, i < rest.length → okAt H (cur :: rest) (i + 1)) := by
  constructor
  · intro hall
    refine ⟨hall 0 (by simp), fun i hi => ?_⟩
    have := hall (i + 1) (by simp; omega)
    rwa [okAt_cons] at this
  · rintro ⟨h0, hrest⟩ i hi
    cases i with
    | zero => exact h0
    | succ j =>
        rw [okAt_cons]
        refine hrest j ?_
        simp at hi
        omega

/-- The loop returns true exactly when every position passes both checks. -/
theorem checkFrom_ok_true_iff (H : String → String) :
    ∀ (l : List Block) (p : Block), (∀ b ∈ l, (dumps b.data).isSome) →
      (checkFrom H p l = .ok true ↔ ∀ i, i < l.length → okAt H (p :: l) (i + 1)) := by
  intro l
  induction l with
  | nil =>
      intro p _
      simp [checkFrom]
  | cons cur rest ih =>
      intro p hs
      have hcur : (hash_block H cur).isSome := by
        rw [hash_block_isSome]
        exact hs cur (List.mem_cons_self cur rest)
      obtain ⟨hdg, hh⟩ := Option.isSome_iff_exists.mp hcur
      have hrest : ∀ b ∈ rest, (dumps b.data).isSome :=
        fun b hb => hs b (List.mem_cons_of_mem _ hb)
      rw [checkFrom_cons_eq H p cur rest hdg hh, forall_okAt_cons, okAt_one]
      by_cases h1 : cur.hash = hdg
      · by_cases h2 : cur.previous_hash = p.hash
        · rw [if_pos h1, if_pos h2, ih cur hrest]
          constructor
          · intro hall
            exact ⟨⟨by rw [hh, h1], h2⟩, hall⟩
          · rintro ⟨_, hall⟩
            exact hall
        · rw [if_pos h1, if_neg h2]
          constructor
          · intro hc
            simp at hc
          · rintro ⟨⟨_, hp⟩, _⟩
            exact absurd hp h2
      · rw [if_neg h1]
        constructor
        · intro hc
          simp at hc
        · rintro ⟨⟨ha, _⟩, _⟩
          rw [hh] at ha
          exact absurd (Option.some.inj ha).symm h1

/-- The reported index is the first position failing a check, and every
earlier position passes both. -/
theorem firstViolationFrom_spec (H : String → String) :
    ∀ (l : List Block) (p : Block) (k j : Nat), (∀ b ∈ l, (dumps b.data).isSome) →
      (firstViolationFrom H k p l = some (k + j) ↔
        (j < l.length ∧ ¬ okAt H (p :: l) (j + 1) ∧
          ∀ m, m < j → okAt H (p :: l) (m + 1))) := by
  intro l
  induction l with
  | nil =>
      intro p k j _
      simp [firstViolationFrom]
  | cons cur rest ih =>
      intro p k j hs
      have hcur : (hash_block H cur).isSome := by
        rw [hash_block_isSome]
        exact hs cur (List.mem_cons_self cur rest)
      obtain ⟨hdg, hh⟩ := Option.isSome_iff_exists.mp hcur
      have hrest : ∀ b ∈ rest, (dumps b.data).isSome :=
        fun b hb => hs b (List.mem_cons_of_mem _ hb)
      have hok1 : okAt H (p :: cur :: rest) 1 ↔
          (cur.hash = hdg ∧ cur.previous_hash = p.hash) := by
        rw [okAt_one]
        constructor
        · rintro ⟨ha, hp⟩
          rw [hh] at ha
          exact ⟨(Option.some.inj ha).symm, hp⟩
        · rintro ⟨h1, hp⟩
          exact ⟨by rw [hh, h1], hp⟩
      rw [firstViolationFrom_cons_eq H k p cur rest hdg hh]
      by_cases h1 : cur.hash = hdg
      · by_cases h2 : cur.previous_hash = p.hash
        · rw [if_pos h1, if_pos h2]
          cases j with
          | zero =>
              constructor
              · intro hc
                have := firstViolationFrom_ge H rest cur (k + 1) k hc
                omega
              · rintro ⟨_, hno, _⟩
                exact absurd (hok1.mpr ⟨h1, h2⟩) hno
          | succ m =>
              rw [show k + (m + 1) = (k + 1) + m by omega, ih cur (k + 1) m hrest]
              constructor
              · rintro ⟨hlen, hno, hall⟩
                refine ⟨by simp; omega, ?_, ?_⟩
                · rw [okAt_cons]
                  exact hno
                · intro m' hm'
                  cases m' with
                  | zero => exact hok1.mpr ⟨h1, h2⟩
                  | succ m'' =>
                      rw [okAt_cons]
                      exact hall m'' (by omega)
              · rintro ⟨hlen, hno, hall⟩
                refine ⟨by simp at hlen; omega, ?_, ?_⟩
                · intro hok
                  rw [← okAt_cons H p] at hok
                  exact hno hok
                · intro m'' hm''
                  have := hall (m'' + 1) (by omega)
                  rwa [okAt_cons] at this
        · rw [if_pos h1, if_neg h2]
          cases j with
          | zero =>
              simp only [Nat.add_zero]
              constructor
              · intro _
                refine ⟨by simp, ?_, by intro m hm; omega⟩
                intro hok
                exact h2 (hok1.mp hok).2
              · intro _
                trivial
          | succ m =>
              constructor
              · intro hc
                have := Option.some.inj hc
                omega
              · rintro ⟨_, _, hall⟩
                have := hall 0 (Nat.succ_pos m)
                exact absurd (hok1.mp this).2 h2
      · rw [if_neg h1]
        cases j with
        | zero =>
            simp only [Nat.add_zero]
            constructor
            · intro _
              refine ⟨by simp, ?_, by intro m hm; omega⟩
              intro hok
              exact h1 (hok1.mp hok).1
            · intro _
              trivial
        | succ m =>
            constructor
            · intro hc
              have := Option.some.inj hc
              omega
            · rintro ⟨_, _, hall⟩
              have := hall 0 (Nat.succ_pos m)
              exact absurd (hok1.mp this).1 h1

/-- The loop returns false exactly when it finds a violation to report. -/
theorem checkFrom_ok_false_iff (H : String → String) :
    ∀ (l : List Block) (p : Block) (k : Nat), (∀ b ∈ l, (dumps b.data).isSome) →
      (checkFrom H p l = .ok false ↔ (firstViolationFrom H k p l).isSome) := by
  intro l
  induction l with
  | nil =>
      intro p k _
      simp [checkFrom, firstViolationFrom]
  | cons cur rest ih =>
      intro p k hs
      have hcur : (hash_block H cur).isSome := by
        rw [hash_block_isSome]
        exact hs cur (List.mem_cons_self cur rest)
      obtain ⟨hdg, hh⟩ := Option.isSome_iff_exists.mp hcur
      have hrest : ∀ b ∈ rest, (dumps b.data).isSome :=
        fun b hb => hs b (List.mem_cons_of_mem _ hb)
      rw [checkFrom_cons_eq H p cur rest hdg hh,
        firstViolationFrom_cons_eq H k p cur rest hdg hh]
      by_cases h1 : cur.hash = hdg
      · by_cases h2 : cur.previous_hash = p.hash
        · simp only [if_pos h1, if_pos h2]
          exact ih cur (k + 1) hrest
        · simp only [if_pos h1, if_neg h2]
          simp
      · simp only [if_neg h1]
        simp

/-- On a serializable chain, is_chain_valid returns true exactly when every
position from 1 on passes both checks. -/
theorem chain_valid_true_iff (H : String → String) (c : List Block)
    (hs : ∀ b ∈ c, (dumps b.data).isSome) :
    is_chain_valid H c = .ok true ↔ ∀ i, 1 ≤ i → i < c.length → okAt H c i := by
  cases c with
  | nil => simp [is_chain_valid]
  | cons p l =>
      have hl : ∀ b ∈ l, (dumps b.data).isSome :=
        fun b hb => hs b (List.mem_cons_of_mem _ hb)
      rw [show is_chain_valid H (p :: l) = checkFrom H p l from rfl,
        checkFrom_ok_true_iff H l p hl]
      constructor
      · intro hall i hi1 hi2
        cases i with
        | zero => omega
        | succ m =>
            refine hall m ?_
            simp at hi2
            omega
      · intro hall i hi
        exact hall (i + 1) (by omega) (by simp; omega)

/-- On a serializable chain, is_chain_valid returns false exactly when it has
an index to report. -/
theorem chain_valid_false_iff (H : String → String) (c : List Block)
    (hs : ∀ b ∈ c, (dumps b.data).isSome) :
    is_chain_valid H c = .ok false ↔ ∃ j, firstViolation H c = some j := by
  cases c with
  | nil => simp [is_chain_valid, firstViolation]
  | cons p l =>
      have hl : ∀ b ∈ l, (dumps b.data).isSome :=
        fun b hb => hs b (List.mem_cons_of_mem _ hb)
      rw [show is_chain_valid H (p :: l) = checkFrom H p l from rfl,
        show firstViolation H (p :: l) = firstViolationFrom H 1 p l from rfl,
        checkFrom_ok_false_iff H l p 1 hl]
      simp [Option.isSome_iff_exists]

/-- On a serializable chain, the reported index is exactly the first position
failing a check. -/
theorem chain_firstViolation_iff (H : String → String) (c : List Block)
    (hs : ∀ b ∈ c, (dumps b.data).isSome) (j : Nat) :
    firstViolation H c = some j ↔
      (1 ≤ j ∧ j < c.length ∧ ¬ okAt H c j ∧ ∀ k, 1 ≤ k → k < j → okAt H c k) := by
  cases c with
  | nil => simp [firstViolation]
  | cons p l =>
      have hl : ∀ b ∈ l, (dumps b.data).isSome :=
        fun b hb => hs b (List.mem_cons_of_mem _ hb)
      rw [show firstViolation H (p :: l) = firstViolationFrom H 1 p l from rfl]
      constructor
      · intro hj
        have hge := firstViolationFrom_ge H l p 1 j hj
        obtain ⟨m, rfl⟩ : ∃ m, j = 1 + m := ⟨j - 1, by omega⟩
        rw [firstViolationFrom_spec H l p 1 m hl] at hj
        obtain ⟨hlen, hno, hall⟩ := hj
        refine ⟨by omega, by simp; omega, ?_, ?_⟩
        · rw [show 1 + m = m + 1 by omega]
          exact hno
        · intro k hk1 hk2
          cases k with
          | zero => omega
          | succ m' => exact hall m' (by omega)
      · rintro ⟨hj1, hj2, hno, hall⟩
        obtain ⟨m, rfl⟩ : ∃ m, j = 1 + m := ⟨j - 1, by omega⟩
        rw [firstViolationFrom_spec H l p 1 m hl]
        refine ⟨by simp at hj2; omega, ?_, ?_⟩
        · rw [show m + 1 = 1 + m by omega]
          exact hno
        · intro m' hm'
          exact hall (m' + 1) (by omega) (by omega)

/-- C1: on a chain whose payloads are serializable, is_chain_valid() returns
true if and only if every index i in 1..N-1 passes both checks (the stored
hash equals the hash recomputed from the block's own fields, and
previous_hash equals block i-1's stored hash); it returns false exactly when
some index fails, and the index it reports on the way out is the first
failing one — every smaller index passes both checks. -/
theorem is_chain_valid_spec (H : String → String) (c : List Block)
    (hs : ∀ b ∈ c, (dumps b.data).isSome) :
    (is_chain_valid H c = .ok true ↔ ∀ i, 1 ≤ i → i < c.length → okAt H c i) ∧
    (is_chain_valid H c = .ok false ↔ ∃ j, firstViolation H c = some j) ∧
    (∀ j, firstViolation H c = some j →
      1 ≤ j ∧ j < c.length ∧ ¬ okAt H c j ∧ ∀ k, 1 ≤ k → k < j → okAt H c k) :=
  ⟨chain_valid_true_iff H c hs, chain_valid_false_iff H c hs,
    fun j hj => (chain_firstViolation_iff H c hs j).mp hj⟩

/-- Concrete two-block chain, consistent under the digest function H0. -/
def chainW : List Block :=
  [⟨0, "g", genesisData, "0", 0, "0h"⟩, ⟨1, "t", .jobj .nil, "0h", 0, "0h"⟩]

/-- C1 witness: the specification instantiated on a concrete chain. -/
theorem is_chain_valid_spec_witness :
    (∀ b ∈ chainW, (dumps b.data).isSome) ∧
    ((is_chain_valid H0 chainW = .ok true ↔
        ∀ i, 1 ≤ i → i < chainW.length → okAt H0 chainW i) ∧
      (is_chain_valid H0 chainW = .ok false ↔ ∃ j, firstViolation H0 chainW = some j) ∧
      (∀ j, firstViolation H0 chainW = some j →
        1 ≤ j ∧ j < chainW.length ∧ ¬ okAt H0 chainW j ∧
          ∀ k, 1 ≤ k → k < j → okAt H0 chainW k)) :=
  ⟨by decide, is_chain_valid_spec H0 chainW (by decide)⟩

/-- C10: the validation loop runs over range(1, len(chain)), so a chain with
fewer than two blocks is always reported valid — the genesis block's own
hash is never rechecked — and loading a durable file holding an empty JSON
list yields the empty chain, through which an empty chain is reachable. -/
theorem short_chain_always_valid (H : String → String) (ok : Bool) (ts : String)
    (fuel d : Nat) (c : List Block) (h : c.length < 2) :
    is_chain_valid H c = .ok true ∧
    load_chain H ok ts fuel ⟨[], d, some (.jarr .nil)⟩
      = some ⟨[], d, some (.jarr .nil)⟩ := by
  constructor
  · cases c with
    | nil => rfl
    | cons b l =>
        cases l with
        | nil => rfl
        | cons b2 l2 => simp at h; omega
  · rfl

/-- C10 witness: a one-block chain whose genesis hash "x" differs from the
hash recomputed from its fields is still reported valid. -/
theorem short_chain_always_valid_witness :
    ([(⟨0, "t", genesisData, "0", 0, "x"⟩ : Block)].length < 2) ∧
    (is_chain_valid H0 [⟨0, "t", genesisData, "0", 0, "x"⟩] = .ok true ∧
      load_chain H0 true "t" 0 ⟨[], 2, some (.jarr .nil)⟩
        = some ⟨[], 2, some (.jarr .nil)⟩) :=
  ⟨by decide,
    short_chain_always_valid H0 true "t" 0 2 [⟨0, "t", genesisData, "0", 0, "x"⟩]
      (by decide)⟩

/-- Entries of a list after List.set at untouched positions. -/
theorem getD_set_ne (c : List Block) (i j : Nat) (x : Block) (h : i ≠ j) :
    (c.set i x).getD j bdef = c.getD j bdef := by
  simp [List.getD_eq_getElem?_getD, List.getElem?_set_ne h]

/-- Entry of a list after List.set at the set position. -/
theorem getD_set_self (c : List Block) (i : Nat) (x : Block) (h : i < c.length) :
    (c.set i x).getD i bdef = x := by
  simp [List.getD_eq_getElem?_getD, List.getElem?_set_self h]

/-- In-range getD values are members of the list. -/
theorem getD_mem (c : List Block) (i : Nat) (h : i < c.length) :
    c.getD i bdef ∈ c := by
  rw [List.getD_eq_getElem?_getD, List.getElem?_eq_getElem h]
  exact List.getElem_mem h

/-- C7: take a chain that validates and is serializable, and overwrite the
previous_hash of block i (i ≥ 1) with any value that differs from block
i-1's stored hash: is_chain_valid() then returns false, and the violation
is reported exactly at index i. -/
theorem splice_detected (H : String → String) (c : List Block) (i : Nat) (v : String)
    (hi1 : 1 ≤ i) (hi2 : i < c.length)
    (hs : ∀ b ∈ c, (dumps b.data).isSome)
    (hvalid : is_chain_valid H c = .ok true)
    (hv : v ≠ (c.getD (i - 1) bdef).hash) :
    is_chain_valid H (c.set i { c.getD i bdef with previous_hash := v }) = .ok false ∧
    firstViolation H (c.set i { c.getD i bdef with previous_hash := v }) = some i := by
  have hs' : ∀ b ∈ c.set i { c.getD i bdef with previous_hash := v },
      (dumps b.data).isSome := by
    intro b hb
    rcases List.mem_or_eq_of_mem_set hb with hmem | rfl
    · exact hs b hmem
    · exact hs (c.getD i bdef) (getD_mem c i hi2)
  have hall : ∀ k, 1 ≤ k → k < c.length → okAt H c k :=
    (chain_valid_true_iff H c hs).mp hvalid
  have hfv : firstViolation H (c.set i { c.getD i bdef with previous_hash := v })
      = some i := by
    rw [chain_firstViolation_iff H _ hs' i]
    refine ⟨hi1, by simpa using hi2, ?_, ?_⟩
    · intro hok
      obtain ⟨_, hlink⟩ := hok
      rw [getD_set_self c i _ hi2] at hlink
      rw [getD_set_ne c i (i - 1) _ (by omega)] at hlink
      exact hv hlink
    · intro k hk1 hk2
      have hko := hall k hk1 (by omega)
      obtain ⟨hk_hash, hk_link⟩ := hko
      constructor
      · rw [getD_set_ne c i k _ (by omega)]
        exact hk_hash
      · rw [getD_set_ne c i k _ (by omega), getD_set_ne c i (k - 1) _ (by omega)]
        exact hk_link
  refine ⟨?_, hfv⟩
  rw [chain_valid_false_iff H _ hs']
  exact ⟨i, hfv⟩

/-- Concrete chain for the C7 witness: chainW with block 1's previous_hash
replaced by "spliced". -/
theorem splice_detected_witness :
    (1 ≤ 1 ∧ 1 < chainW.length ∧ (∀ b ∈ chainW, (dumps b.data).isSome) ∧
      is_chain_valid H0 chainW = .ok true ∧
      "spliced" ≠ (chainW.getD 0 bdef).hash) ∧
    (is_chain_valid H0
        (chainW.set 1 { chainW.getD 1 bdef with previous_hash := "spliced" }) = .ok false ∧
      firstViolation H0
        (chainW.set 1 { chainW.getD 1 bdef with previous_hash := "spliced" }) = some 1) :=
  ⟨⟨by decide, by decide, by decide, by decide, by decide⟩,
    splice_detected H0 chainW 1 "spliced" (by decide) (by decide) (by decide)
      (by decide) (by decide)⟩

/-- save_chain never touches the in-memory chain. -/
theorem save_chain_chain (ok : Bool) (s : LState) : (save_chain ok s).chain = s.chain := by
  unfold save_chain
  split
  · rfl
  · split <;> rfl

/-- save_chain never touches the difficulty. -/
theorem save_chain_difficulty (ok : Bool) (s : LState) :
    (save_chain ok s).difficulty = s.difficulty := by
  unfold save_chain
  split
  · rfl
  · split <;> rfl

/-- save_chain leaves the file alone or overwrites it with the current chain. -/
theorem save_chain_file_cases (ok : Bool) (s : LState) :
    (save_chain ok s).file = s.file ∨
      (save_chain ok s).file = some (chainToJson s.chain) := by
  unfold save_chain
  split
  · exact Or.inl rfl
  · split
    · exact Or.inr rfl
    · exact Or.inl rfl

/-- The Block constructor stores its four arguments and a zero nonce. -/
theorem mkBlock_fields (H : String → String) (i : Int) (ts : String) (dat : JValue)
    (ph : String) (b : Block) (h : mkBlock H i ts dat ph = some b) :
    b.index = i ∧ b.timestamp = ts ∧ b.data = dat ∧ b.previous_hash = ph ∧
      b.nonce = 0 := by
  unfold mkBlock hash_of at h
  cases hd : dumps dat with
  | none => rw [hd] at h; simp at h
  | some ds =>
      rw [hd] at h
      simp only [Option.map_some'] at h
      cases h
      exact ⟨rfl, rfl, rfl, rfl, rfl⟩

/-- C5: a ValueError from _validate_data — empty or non-string vehicle id, or
a sensor record that is not a dict — is caught in add_data, which returns
False with the state untouched. -/
theorem add_data_invalid_input_rejected (H : String → String) (ok : Bool) (ts : String)
    (fuel : Nat) (s : LState) (vid : VId) (sd : JValue)
    (h : vid = .nonstr ∨ vid = .str "" ∨ isObj sd = false) :
    add_data H ok ts fuel s vid sd = (s, false) := by
  have hval : validate_data vid sd = false := by
    rcases h with rfl | rfl | hsd
    · rfl
    · rfl
    · cases vid with
      | nonstr => rfl
      | str v => simp [validate_data, hsd]
  unfold add_data
  rw [hval]
  simp

/-- Ledger state used by concrete witnesses: the two-block chain at
difficulty 1 with no durable file yet. -/
def sW : LState := ⟨chainW, 1, none⟩

/-- C5 witness: an empty vehicle id is rejected and the state survives. -/
theorem add_data_invalid_input_rejected_witness :
    (VId.str "" = .nonstr ∨ VId.str "" = .str "" ∨ isObj (.jobj .nil) = false) ∧
    add_data H0 true "u" 0 sW (.str "") (.jobj .nil) = (sW, false) :=
  ⟨Or.inr (Or.inl rfl),
    add_data_invalid_input_rejected H0 true "u" 0 sW (.str "") (.jobj .nil)
      (Or.inr (Or.inl rfl))⟩

/-- C9: a successful add_data call appends exactly one block: the new chain
is the old chain with one block added at the end, that block's index is the
old length and its previous_hash is the stored hash of the old tail, and
every pre-existing block is untouched. -/
theorem add_data_appends_one_block (H : String → String) (ok : Bool) (ts : String)
    (fuel : Nat) (s : LState) (vid : VId) (sd : JValue) (s' : LState) (prev : Block)
    (hlast : s.chain.getLast? = some prev)
    (hrun : add_data H ok ts fuel s vid sd = (s', true)) :
    ∃ nb, s'.chain = s.chain ++ [nb] ∧ nb.index = (s.chain.length : Int) ∧
      nb.previous_hash = prev.hash := by
  cases vid with
  | nonstr => simp [add_data, validate_data] at hrun
  | str v =>
      by_cases hval : validate_data (VId.str v) sd
      · cases hsig : generate_signature H v sd with
        | none => simp [add_data, hval, hlast, hsig] at hrun
        | some sig =>
            cases hmk : mkBlock H (s.chain.length : Int) ts (newBlockData v sd sig)
                prev.hash with
            | none => simp [add_data, hval, hlast, hsig, hmk] at hrun
            | some nb =>
                cases hmine : mine_block H s.difficulty fuel nb with
                | none => simp [add_data, hval, hlast, hsig, hmk, hmine] at hrun
                | some mined =>
                    simp only [add_data, hval, hlast, hsig, hmk, hmine, if_true,
                      Prod.mk.injEq] at hrun
                    obtain ⟨hs', _⟩ := hrun
                    obtain ⟨hmi, _, _, hmp⟩ := mine_block_fields H s.difficulty fuel nb
                      mined hmine
                    obtain ⟨hni, _, _, hnp, _⟩ := mkBlock_fields H (s.chain.length : Int)
                      ts (newBlockData v sd sig) prev.hash nb hmk
                    refine ⟨mined, ?_, ?_, ?_⟩
                    · rw [← hs', save_chain_chain]
                    · rw [hmi, hni]
                    · rw [hmp, hnp]
      · simp [add_data, hval] at hrun

/-- C9 witness: a concrete successful append on the two-block chain. -/
theorem add_data_appends_one_block_witness :
    (sW.chain.getLast? = some ⟨1, "t", .jobj .nil, "0h", 0, "0h"⟩) ∧
    (add_data H0 true "u" 3 sW (.str "V1") (.jobj .nil)
        = ((add_data H0 true "u" 3 sW (.str "V1") (.jobj .nil)).1, true)) ∧
    (∃ nb, (add_data H0 true "u" 3 sW (.str "V1") (.jobj .nil)).1.chain
        = sW.chain ++ [nb] ∧ nb.index = (sW.chain.length : Int) ∧
        nb.previous_hash = Block.hash ⟨1, "t", .jobj .nil, "0h", 0, "0h"⟩) :=
  ⟨by decide, by decide,
    add_data_appends_one_block H0 true "u" 3 sW (.str "V1") (.jobj .nil)
      (add_data H0 true "u" 3 sW (.str "V1") (.jobj .nil)).1
      ⟨1, "t", .jobj .nil, "0h", 0, "0h"⟩ (by decide) (by decide)⟩

/-- C4 (amended): when add_data reports failure the whole state is unchanged
(this covers every exception it catches: validation, signature hashing, the
block constructor's hash computation and mining); and the outcome of the file
write never influences add_data — save_chain catches persistence errors
internally, so with a failing write add_data returns the same flag and the
same in-memory chain as with a successful one, the append still being
reported as successful. -/
theorem add_data_failure_frame (H : String → String) (ok : Bool) (ts : String)
    (fuel : Nat) (s : LState) (vid : VId) (sd : JValue) :
    ((add_data H ok ts fuel s vid sd).2 = false → (add_data H ok ts fuel s vid sd).1 = s) ∧
    (add_data H ok ts fuel s vid sd).1.chain = (add_data H true ts fuel s vid sd).1.chain ∧
    (add_data H ok ts fuel s vid sd).2 = (add_data H true ts fuel s vid sd).2 := by
  cases vid with
  | nonstr =>
      refine ⟨fun _ => ?_, ?_, ?_⟩ <;> simp [add_data, validate_data]
  | str v =>
      by_cases hval : validate_data (VId.str v) sd
      · cases hlast : s.chain.getLast? with
        | none => refine ⟨fun _ => ?_, ?_, ?_⟩ <;> simp [add_data, hval, hlast]
        | some prev =>
            cases hsig : generate_signature H v sd with
            | none =>
                refine ⟨fun _ => ?_, ?_, ?_⟩ <;> simp [add_data, hval, hlast, hsig]
            | some sig =>
                cases hmk : mkBlock H (s.chain.length : Int) ts (newBlockData v sd sig)
                    prev.hash with
                | none =>
                    refine ⟨fun _ => ?_, ?_, ?_⟩ <;>
                      simp [add_data, hval, hlast, hsig, hmk]
                | some nb =>
                    cases hmine : mine_block H s.difficulty fuel nb with
                    | none =>
                        refine ⟨fun _ => ?_, ?_, ?_⟩ <;>
                          simp [add_data, hval, hlast, hsig, hmk, hmine]
                    | some mined =>
                        refine ⟨fun hc => ?_, ?_, ?_⟩
                        · exfalso
                          simp [add_data, hval, hlast, hsig, hmk, hmine] at hc
                        · simp [add_data, hval, hlast, hsig, hmk, hmine,
                            save_chain_chain]
                        · simp [add_data, hval, hlast, hsig, hmk, hmine]
      · refine ⟨fun _ => ?_, ?_, ?_⟩ <;> simp [add_data, hval]

/-- C4 witness: the frame conditions at a concrete failing-write append. -/
theorem add_data_failure_frame_witness :
    ((add_data H0 false "u" 3 sW (.str "V1") (.jobj .nil)).2 = false →
      (add_data H0 false "u" 3 sW (.str "V1") (.jobj .nil)).1 = sW) ∧
    (add_data H0 false "u" 3 sW (.str "V1") (.jobj .nil)).1.chain
      = (add_data H0 true "u" 3 sW (.str "V1") (.jobj .nil)).1.chain ∧
    (add_data H0 false "u" 3 sW (.str "V1") (.jobj .nil)).2
      = (add_data H0 true "u" 3 sW (.str "V1") (.jobj .nil)).2 :=
  add_data_failure_frame H0 false "u" 3 sW (.str "V1") (.jobj .nil)

/-- C4 counterexample: with the durable write failing (save_chain swallows
the exception), add_data still returns True and the in-memory chain has
grown — a persistence failure does not make the append be reported as
failed, contradicting the claim. -/
theorem add_data_save_failure_counterexample :
    (add_data H0 false "u" 3 sW (.str "V1") (.jobj .nil)).2 = true ∧
    (add_data H0 false "u" 3 sW (.str "V1") (.jobj .nil)).1.chain ≠ sW.chain := by
  decide

/-- The filter predicate holds exactly for non-genesis-indexed blocks whose
payload binds "vehicle_id" to the queried string. -/
theorem vehicleMatch_iff (b : Block) (vid : String) :
    vehicleMatch b vid = true ↔
      (0 < b.index ∧ jGetKey b.data "vehicle_id" = some (.jstr vid)) := by
  unfold vehicleMatch
  rw [Bool.and_eq_true, decide_eq_true_eq]
  cases hg : jGetKey b.data "vehicle_id" with
  | none => simp
  | some jv => cases jv <;> simp

/-- C8: get_block_by_vehicle_id returns exactly the blocks of the chain whose
index is positive and whose payload's vehicle_id equals the queried id; the
result is a subsequence of the chain (so when the chain's indices are
strictly increasing the result's are too, i.e. ascending chain order), and a
genesis block — index 0 — never appears even if its payload matches. -/
theorem get_block_by_vehicle_id_spec (c : List Block) (vid : String) :
    (∀ b, b ∈ get_block_by_vehicle_id c vid ↔
      (b ∈ c ∧ 0 < b.index ∧ jGetKey b.data "vehicle_id" = some (.jstr vid))) ∧
    (get_block_by_vehicle_id c vid).Sublist c ∧
    ((c.map Block.index).Pairwise (· < ·) →
      ((get_block_by_vehicle_id c vid).map Block.index).Pairwise (· < ·)) ∧
    (∀ b ∈ get_block_by_vehicle_id c vid, 0 < b.index) := by
  refine ⟨?_, List.filter_sublist c, ?_, ?_⟩
  · intro b
    rw [get_block_by_vehicle_id, List.mem_filter, vehicleMatch_iff]
  · intro hp
    exact List.Pairwise.sublist ((List.filter_sublist c).map Block.index) hp
  · intro b hb
    exact ((vehicleMatch_iff b vid).mp (List.mem_filter.mp hb).2).1

/-- Chain used by the C8 witness: a genesis block and one record for
vehicle "V1". -/
def chainQ : List Block :=
  [⟨0, "g", genesisData, "0", 0, "0h"⟩,
   ⟨1, "t", newBlockData "V1" (.jobj .nil) "0h", "0h", 0, "0h"⟩]

/-- C8 witness: the query specification instantiated on a concrete chain. -/
theorem get_block_by_vehicle_id_spec_witness :
    (∀ b, b ∈ get_block_by_vehicle_id chainQ "V1" ↔
      (b ∈ chainQ ∧ 0 < b.index ∧
        jGetKey b.data "vehicle_id" = some (.jstr "V1"))) ∧
    (get_block_by_vehicle_id chainQ "V1").Sublist chainQ ∧
    ((chainQ.map Block.index).Pairwise (· < ·) →
      ((get_block_by_vehicle_id chainQ "V1").map Block.index).Pairwise (· < ·)) ∧
    (∀ b ∈ get_block_by_vehicle_id chainQ "V1", 0 < b.index) :=
  get_block_by_vehicle_id_spec chainQ "V1"

/-- Serializing the block record save_chain builds succeeds whenever the
block's payload serializes. -/
theorem dumps_blockToJson_isSome (b : Block) (hs : (dumps b.data).isSome) :
    (dumps (blockToJson b)).isSome := by
  obtain ⟨ds, hd⟩ := Option.isSome_iff_exists.mp hs
  simp [blockToJson, dumps, dumpsFields, hd, Option.bind]

/-- Serializing every persisted block record succeeds on a serializable
chain. -/
theorem dumpsList_blocks_isSome :
    ∀ (c : List Block), (∀ b ∈ c, (dumps b.data).isSome) →
      (dumpsList (listToJList (c.map blockToJson))).isSome := by
  intro c
  induction c with
  | nil => intro _; decide
  | cons b rest ih =>
      intro hs
      obtain ⟨sb, hsb⟩ := Option.isSome_iff_exists.mp
        (dumps_blockToJson_isSome b (hs b (List.mem_cons_self b rest)))
      obtain ⟨ss, hss⟩ := Option.isSome_iff_exists.mp
        (ih (fun x hx => hs x (List.mem_cons_of_mem _ hx)))
      simp only [List.map_cons, listToJList, dumpsList, hsb, hss, Option.bind]
      simp

/-- Serializing the whole persisted array succeeds on a serializable chain. -/
theorem dumps_chainToJson_isSome (c : List Block)
    (hs : ∀ b ∈ c, (dumps b.data).isSome) : (dumps (chainToJson c)).isSome := by
  obtain ⟨ss, hss⟩ := Option.isSome_iff_exists.mp (dumpsList_blocks_isSome c hs)
  rw [chainToJson]
  simp only [dumps, hss]
  simp

/-- Reading back the record save_chain wrote for a block reconstructs the
block exactly: the constructor recomputes a provisional hash with nonce 0,
then the stored nonce and hash overwrite it, so no re-mining happens. -/
theorem loadBlock_blockToJson (H : String → String) (b : Block)
    (hs : (dumps b.data).isSome) : loadBlock H (blockToJson b) = some b := by
  cases b with
  | mk bi bt bdata bph bn bh =>
      obtain ⟨ds, hd⟩ := Option.isSome_iff_exists.mp hs
      simp only [blockToJson] at *
      unfold loadBlock
      simp [jGetKey, jfieldsGet, mkBlock, hash_of, hd]

/-- The load loop over the records save_chain wrote rebuilds the original
chain behind the accumulator, finishing without an exception. -/
theorem loadLoop_round (H : String → String) :
    ∀ (c acc : List Block), (∀ b ∈ c, (dumps b.data).isSome) →
      loadLoop H (listToJList (c.map blockToJson)) acc = (acc ++ c, true) := by
  intro c
  induction c with
  | nil =>
      intro acc _
      simp [loadLoop, listToJList]
  | cons b rest ih =>
      intro acc hs
      have hb := loadBlock_blockToJson H b (hs b (List.mem_cons_self b rest))
      simp only [List.map_cons, listToJList, loadLoop, hb]
      rw [ih (acc ++ [b]) (fun x hx => hs x (List.mem_cons_of_mem _ hx))]
      simp

/-- C6: persisting a serializable chain and restoring from the produced
representation yields the same chain field for field — index, timestamp,
data, previous_hash, and in particular the stored nonce and hash are taken
over directly, with no re-mining during the restore. -/
theorem save_load_round_trip (H : String → String) (ok : Bool) (ts : String)
    (fuel : Nat) (c : List Block) (d : Nat) (f : Option JValue)
    (hs : ∀ b ∈ c, (dumps b.data).isSome) :
    save_chain true ⟨c, d, f⟩ = ⟨c, d, some (chainToJson c)⟩ ∧
    load_chain H ok ts fuel ⟨[], d, some (chainToJson c)⟩
      = some ⟨c, d, some (chainToJson c)⟩ := by
  constructor
  · obtain ⟨str, hstr⟩ := Option.isSome_iff_exists.mp (dumps_chainToJson_isSome c hs)
    simp [save_chain, hstr]
  · rw [show (chainToJson c) = .jarr (listToJList (c.map blockToJson)) from rfl]
    simp only [load_chain, loadLoop_round H c [] hs]
    simp

/-- C6 witness: round trip of the concrete two-block chain. -/
theorem save_load_round_trip_witness :
    (∀ b ∈ chainW, (dumps b.data).isSome) ∧
    (save_chain true ⟨chainW, 1, none⟩ = ⟨chainW, 1, some (chainToJson chainW)⟩ ∧
      load_chain H0 true "t" 0 ⟨[], 1, some (chainToJson chainW)⟩
        = some ⟨chainW, 1, some (chainToJson chainW)⟩) :=
  ⟨by decide, save_load_round_trip H0 true "t" 0 chainW 1 none (by decide)⟩

/-- Every block of the chain meets the mining target for difficulty d and has
a serializable payload. -/
def minedChain (d : Nat) (c : List Block) : Prop :=
  ∀ b ∈ c, strTake b.hash d = target d ∧ (dumps b.data).isSome

/-- The durable file is absent or holds the persisted form of a mined chain. -/
def fileGood (d : Nat) : Option JValue → Prop
  | none => True
  | some j => ∃ c, j = chainToJson c ∧ minedChain d c

/-- Invariant carried by every reachable ledger state. -/
def goodState (s : LState) : Prop :=
  minedChain s.difficulty s.chain ∧ fileGood s.difficulty s.file

/-- save_chain preserves the invariant: it either leaves the file alone or
overwrites it with the current (mined) chain. -/
theorem save_chain_good (ok : Bool) (s : LState)
    (h : minedChain s.difficulty s.chain) (hf : fileGood s.difficulty s.file) :
    goodState (save_chain ok s) := by
  unfold save_chain
  split
  · exact ⟨h, hf⟩
  · split
    · exact ⟨h, ⟨s.chain, rfl, h⟩⟩
    · exact ⟨h, hf⟩

/-- create_genesis_block preserves the invariant: the appended genesis block
comes straight out of a terminated mining run. -/
theorem create_genesis_good (H : String → String) (ok : Bool) (ts : String)
    (fuel : Nat) (s s' : LState)
    (hchain : minedChain s.difficulty s.chain) (hf : fileGood s.difficulty s.file)
    (h : create_genesis_block H ok ts fuel s = some s') : goodState s' := by
  cases hmk : mkBlock H 0 ts genesisData "0" with
  | none => simp [create_genesis_block, hmk] at h
  | some gb =>
      cases hmine : mine_block H s.difficulty fuel gb with
      | none => simp [create_genesis_block, hmk, hmine] at h
      | some mined =>
          simp only [create_genesis_block, hmk, hmine, Option.some.injEq] at h
          cases h
          apply save_chain_good
          · intro b hb
            rcases List.mem_append.mp hb with hb | hb
            · exact hchain b hb
            · have hbm := List.mem_singleton.mp hb
              subst hbm
              constructor
              · exact mine_block_meets_target H s.difficulty fuel gb b hmine
              · rw [(mine_block_fields H s.difficulty fuel gb b hmine).2.2.1,
                  (mkBlock_fields H 0 ts genesisData "0" gb hmk).2.2.1]
                decide
          · exact hf

/-- The constructor preserves the invariant whichever path it takes. -/
theorem initLedger_good (H : String → String) (ok : Bool) (ts : String)
    (fuel d : Nat) (file : Option JValue) (s' : LState)
    (hf : fileGood d file)
    (h : initLedger H ok ts fuel d file = some s') : goodState s' := by
  cases file with
  | none =>
      exact create_genesis_good H ok ts fuel ⟨[], d, none⟩ s'
        (fun b hb => absurd hb (List.not_mem_nil b)) trivial h
  | some j =>
      obtain ⟨c, rfl, hc⟩ := hf
      have hloop := loadLoop_round H c [] (fun b hb => (hc b hb).2)
      rw [show chainToJson c = .jarr (listToJList (c.map blockToJson)) from rfl] at h
      simp only [initLedger, load_chain, hloop, List.nil_append, if_true] at h
      cases h
      refine ⟨fun b hb => hc b hb, ⟨c, rfl, hc⟩⟩

/-- add_data preserves the invariant: a failed append leaves the state as it
was and a successful one appends a block fresh out of mining. -/
theorem add_data_good (H : String → String) (ok : Bool) (ts : String) (fuel : Nat)
    (s : LState) (vid : VId) (sd : JValue) (hg : goodState s) :
    goodState (add_data H ok ts fuel s vid sd).1 := by
  cases vid with
  | nonstr => simpa [add_data, validate_data] using hg
  | str v =>
      by_cases hval : validate_data (VId.str v) sd
      · cases hlast : s.chain.getLast? with
        | none => simpa [add_data, hval, hlast] using hg
        | some prev =>
            cases hsig : generate_signature H v sd with
            | none => simpa [add_data, hval, hlast, hsig] using hg
            | some sig =>
                cases hmk : mkBlock H (s.chain.length : Int) ts
                    (newBlockData v sd sig) prev.hash with
                | none => simpa [add_data, hval, hlast, hsig, hmk] using hg
                | some nb =>
                    cases hmine : mine_block H s.difficulty fuel nb with
                    | none => simpa [add_data, hval, hlast, hsig, hmk, hmine] using hg
                    | some mined =>
                        simp only [add_data, hval, hlast, hsig, hmk, hmine, if_true]
                        apply save_chain_good
                        · intro b hb
                          rcases List.mem_append.mp hb with hb | hb
                          · exact hg.1 b hb
                          · have hbm := List.mem_singleton.mp hb
                            subst hbm
                            constructor
                            · exact mine_block_meets_target H s.difficulty fuel nb b
                                hmine
                            · have hser : (dumps (newBlockData v sd sig)).isSome := by
                                unfold mkBlock hash_of at hmk
                                cases hd : dumps (newBlockData v sd sig) with
                                | none => rw [hd] at hmk; simp at hmk
                                | some _ => simp
                              rw [(mine_block_fields H s.difficulty fuel nb b
                                  hmine).2.2.1,
                                (mkBlock_fields H (s.chain.length : Int) ts
                                  (newBlockData v sd sig) prev.hash nb hmk).2.2.1]
                              exact hser
                        · exact hg.2
      · simpa [add_data, hval] using hg

/-- Ledger states reachable through the public lifecycle: a fresh start with
no durable file, a restart of the constructor on the durable file of a
reachable state at the same configured difficulty, and any add_data call
(succeeding or failing, with the file write succeeding or failing). -/
inductive Reach (H : String → String) : LState → Prop where
  | fresh (ok : Bool) (ts : String) (fuel d : Nat) (s : LState)
      (hinit : initLedger H ok ts fuel d none = some s) : Reach H s
  | restore (s₀ : LState) (ok : Bool) (ts : String) (fuel : Nat) (s : LState)
      (hprev : Reach H s₀)
      (hinit : initLedger H ok ts fuel s₀.difficulty s₀.file = some s) : Reach H s
  | step (s₀ : LState) (ok : Bool) (ts : String) (fuel : Nat) (vid : VId)
      (sd : JValue) (hprev : Reach H s₀) :
      Reach H (add_data H ok ts fuel s₀ vid sd).1

/-- Every reachable state satisfies the invariant. -/
theorem reach_good (H : String → String) (s : LState) (h : Reach H s) :
    goodState s := by
  induction h with
  | fresh ok ts fuel d s hinit => exact initLedger_good H ok ts fuel d none s trivial hinit
  | restore s₀ ok ts fuel s hprev hinit ih =>
      exact initLedger_good H ok ts fuel s₀.difficulty s₀.file s ih.2 hinit
  | step s₀ ok ts fuel vid sd hprev ih => exact add_data_good H ok ts fuel s₀ vid sd ih

/-- C3: in every reachable ledger state — a fresh genesis start or a restore
from a reachable state's durable file, followed by any sequence of appends —
every block of the chain has a hash whose first `difficulty` characters are
all '0': the mining postcondition is a whole-chain invariant preserved by
every operation, load_chain included. -/
theorem reachable_chain_meets_difficulty (H : String → String) (s : LState)
    (h : Reach H s) :
    ∀ b ∈ s.chain, strTake b.hash s.difficulty = target s.difficulty :=
  fun b hb => ((reach_good H s h).1 b hb).1

/-- C3 witness: the state created by a fresh start at difficulty 1. -/
theorem reachable_chain_meets_difficulty_witness :
    strTake (Block.hash ⟨0, "t", genesisData, "0", 0, "0h"⟩) 1 = target 1 :=
  reachable_chain_meets_difficulty H0
    ⟨[⟨0, "t", genesisData, "0", 0, "0h"⟩], 1,
      some (chainToJson [⟨0, "t", genesisData, "0", 0, "0h"⟩])⟩
    (Reach.fresh true "t" 0 1
      ⟨[⟨0, "t", genesisData, "0", 0, "0h"⟩], 1,
        some (chainToJson [⟨0, "t", genesisData, "0", 0, "0h"⟩])⟩
      (by decide))
    ⟨0, "t", genesisData, "0", 0, "0h"⟩ (by decide)
